import Mathlib

/-!
Verification model of the resume-screener core
(`resume_screener_service/utils/resume_parser.py` and
`resume_screener_service/utils/scoring_logic.py`).

Text is modelled as `List Char` (ASCII semantics for `str.lower`, `\s`,
`\d`, `[A-Za-z]`).  Python/PyTorch floating-point numbers are modelled as
exact rationals; `round(x, 2)` is modelled as round-half-to-even at two
decimal places.  The SBERT embedding capability is an external dependency
and enters as an abstract deterministic similarity oracle
`sim : Str → Str → ℚ` (the composition of `encode` and `cos_sim`).
Each regular expression of the source is embedded with Python `re`
backtracking semantics (leftmost match, ordered alternation, greedy or
lazy quantifiers as written in the pattern).
-/

abbrev Str := List Char

/-- Python `\s` (ASCII fragment): space, tab, newline, carriage return,
vertical tab, form feed. -/
def pyWS (c : Char) : Bool :=
  c == ' ' || c == '\t' || c == '\n' || c == '\r' || c == '\x0b' || c == '\x0c'

/-- Regex `\d` (ASCII). -/
def isDigitC (c : Char) : Bool := '0' ≤ c && c ≤ '9'

/-- Regex `[a-zA-Z]`. -/
def isLetterC (c : Char) : Bool := ('a' ≤ c && c ≤ 'z') || ('A' ≤ c && c ≤ 'Z')

/-- Python `str.lower()` on one character (ASCII case mapping). -/
def lowChar (c : Char) : Char := Char.toLower c

/-- Python `str.lower()`. -/
def toLowerT (s : Str) : Str := s.map lowChar

/-- Python `str.strip()`: drop leading and trailing whitespace. -/
def pyStrip (s : Str) : Str :=
  ((s.dropWhile pyWS).reverse.dropWhile pyWS).reverse

/-- Prepend a character to the first piece of a split result. -/
def consHead (c : Char) : List Str → List Str
  | [] => [[c]]
  | p :: ps => (c :: p) :: ps

/-- Python `str.split(sep)` for a one-character separator (empty pieces kept). -/
def splitOnChar (sep : Char) : Str → List Str
  | [] => [[]]
  | c :: t => if c = sep then [] :: splitOnChar sep t else consHead c (splitOnChar sep t)

/-- Python `re.split` on a character class: split at every character
satisfying `p`, keeping empty pieces. -/
def splitAny (p : Char → Bool) : Str → List Str
  | [] => [[]]
  | c :: t => if p c then [] :: splitAny p t else consHead c (splitAny p t)

/-- Python `" ".join(xs)`. -/
def joinSpace : List Str → Str
  | [] => []
  | [x] => x
  | x :: y :: t => x ++ ' ' :: joinSpace (y :: t)

/-- Literal-match check: is `pat` an initial segment of `s`? -/
def pfxT : Str → Str → Bool
  | [], _ => true
  | _ :: _, [] => false
  | a :: x, b :: y => if a = b then pfxT x y else false

/-- Python `needle in hay` (contiguous substring test). -/
def isSubT (n : Str) : Str → Bool
  | [] => n.isEmpty
  | c :: t => pfxT n (c :: t) || isSubT n t

/-- Try a matcher at every position of the text, leftmost success wins
(the search loop of `re.search` / first element of `re.findall`). -/
def scanFirst {α : Type} (f : Str → Option α) : Str → Option α
  | [] => none
  | c :: t => f (c :: t) <|> scanFirst f t

/-- Match a literal pattern and return the remainder of the text. -/
def matchLit (pat : Str) (s : Str) : Option Str :=
  if pfxT pat s then some (s.drop pat.length) else none

/-- Regex `\s+` followed by a non-whitespace continuation: at least one
whitespace character, consumed greedily. -/
def matchWS1 (s : Str) : Option Str :=
  match s with
  | [] => none
  | c :: t => if pyWS c then some (t.dropWhile pyWS) else none

/-- Two literals separated by `\s+` (e.g. regex `required\s+skills`). -/
def litWsLit (a b : Str) (s : Str) : Option Str :=
  (matchLit a s).bind (fun r => (matchWS1 r).bind (matchLit b))

/-- Python `int` of a run of ASCII digits. -/
def digitsToNat (d : Str) : ℕ := d.foldl (fun a c => a * 10 + (c.toNat - 48)) 0

/-- Decimal rendering of a natural number (an f-string `{n}`). -/
def natTxt (n : ℕ) : Str := (Nat.repr n).data

/-- Decimal rendering of an integer (an f-string `{i}`). -/
def intTxt (z : ℤ) : Str := (Int.repr z).data

/-- Python `int()` applied to a rational: truncation toward zero. -/
def pyInt (q : ℚ) : ℤ := if 0 ≤ q then ⌊q⌋ else ⌈q⌉

/-- Round-half-to-even to the nearest integer (Python `round`). -/
def roundHE (x : ℚ) : ℤ :=
  if x - (⌊x⌋ : ℚ) < 1/2 then ⌊x⌋
  else if 1/2 < x - (⌊x⌋ : ℚ) then ⌊x⌋ + 1
  else if ⌊x⌋ % 2 = 0 then ⌊x⌋ else ⌊x⌋ + 1

/-- Python `round(x, 2)`. -/
def pyRound2 (x : ℚ) : ℚ := (roundHE (x * 100) : ℚ) / 100

/-! ## Requirement miner: `_extract_jd_requirements` (scoring_logic.py)

Each of the three section regexes has the shape
`HEADER:?\s*(.*?)(?:\n\n|\n[A-Z][a-zA-Z\s]+:|\Z)` and is applied with
`re.IGNORECASE | re.DOTALL` to the lowercased JD text, so `[A-Z]`
matches any ASCII letter. -/

/-- Terminator alternative `\n\n` of the section regexes. -/
def blankTermAt : Str → Bool
  | '\n' :: '\n' :: _ => true
  | _ => false

/-- Terminator alternative `\n[A-Z][a-zA-Z\s]+:` of the section regexes
(under `re.IGNORECASE`, `[A-Z]` matches any ASCII letter; `\s` includes
newlines, so the heading may span lines). -/
def headingTermAt : Str → Bool
  | '\n' :: c :: rest =>
    isLetterC c &&
      (let run := rest.takeWhile (fun d => isLetterC d || pyWS d)
       !run.isEmpty &&
         (match rest.drop run.length with
          | ':' :: _ => true
          | _ => false))
  | _ => false

/-- Does one of the two non-end terminator alternatives match here? -/
def termStop (s : Str) : Bool := blankTermAt s || headingTermAt s

/-- The lazy group `(.*?)` of the section regexes: extend the capture one
character at a time until a terminator alternative (or `\Z`) matches. -/
def lazyCapture : Str → Str
  | [] => []
  | c :: t => if termStop (c :: t) then [] else c :: lazyCapture t

/-- Header alternation `(?:(?:required|key)\s+skills|skills|technical\s+qualifications)`. -/
def hmSkills (s : Str) : Option Str :=
  litWsLit "required".data "skills".data s <|>
  litWsLit "key".data "skills".data s <|>
  matchLit "skills".data s <|>
  litWsLit "technical".data "qualifications".data s

/-- Header alternation `(?:key\s+responsibilities|responsibilities|duties)`. -/
def hmResp (s : Str) : Option Str :=
  litWsLit "key".data "responsibilities".data s <|>
  matchLit "responsibilities".data s <|>
  matchLit "duties".data s

/-- Header alternation `(?:education|qualifications|academic\s+background)`. -/
def hmEdu (s : Str) : Option Str :=
  matchLit "education".data s <|>
  matchLit "qualifications".data s <|>
  litWsLit "academic".data "background".data s

/-- Leftmost position at which a header alternation matches; returns the
remaining text after the matched header. -/
def searchHdr (hm : Str → Option Str) : Str → Option Str
  | [] => none
  | c :: t => hm (c :: t) <|> searchHdr hm t

/-- The `:?` right after the header. -/
def dropColon (s : Str) : Str :=
  match s with
  | ':' :: t => t
  | _ => s

/-- Header search followed by `:?\s*`: the position where the lazy capture
group starts. -/
def sectionAfter (hm : Str → Option Str) (text : Str) : Option Str :=
  (searchHdr hm text).map (fun rem => (dropColon rem).dropWhile pyWS)

/-- The chain `.replace('*', '').replace('-', '').replace('•', '')`. -/
def removeBullets (s : Str) : Str :=
  s.filter (fun c => !(c == '*' || c == '-' || c == '•'))

/-- The comprehension `[x.strip() for x in re.split(r'[,;\n]', text) if x.strip()]` applied
to the bullet-stripped, stripped capture. -/
def fragsOf (cleaned : Str) : List Str :=
  ((splitAny (fun c => c == ',' || c == ';' || c == '\n') (pyStrip cleaned)).map pyStrip).filter
    (fun f => !f.isEmpty)

/-- One section of `_extract_jd_requirements`: header search, lazy capture,
bullet stripping, strip, split, trim, drop empties. -/
def mineSection (hm : Str → Option Str) (textLower : Str) : List Str :=
  match sectionAfter hm textLower with
  | none => []
  | some rest => fragsOf (removeBullets (lazyCapture rest))

/-- The experience regex of the miner,
`(\d+)\s*(?:\+|plus)?\s*(?:years|yrs?)\s+(?:of\s+)?(?:experience|exp)`,
attempted at one position (alternatives and optional groups are tried in
the engine's order). -/
def matchJDExpAt (s : Str) : Option ℕ :=
  match s with
  | [] => none
  | c :: _ =>
    if isDigitC c then
      let d := s.takeWhile isDigitC
      let r1 := (s.drop d.length).dropWhile pyWS
      let plusRems : List Str :=
        (match r1 with
         | '+' :: t => [t]
         | _ => []) ++
        (match matchLit "plus".data r1 with
         | some t => [t]
         | none => []) ++ [r1]
      plusRems.findSome? (fun r =>
        let r2 := r.dropWhile pyWS
        (["years".data, "yrs".data, "yr".data].filterMap (fun y => matchLit y r2)).findSome?
          (fun r3 =>
            match r3 with
            | c2 :: t2 =>
              if pyWS c2 then
                let r4 := t2.dropWhile pyWS
                let ofRems : List Str :=
                  (match matchLit "of".data r4 with
                   | some t4 =>
                     (match t4 with
                      | c4 :: t5 => if pyWS c4 then [t5.dropWhile pyWS] else []
                      | [] => [])
                   | none => []) ++ [r4]
                ofRems.findSome? (fun r5 =>
                  if pfxT "experience".data r5 || pfxT "exp".data r5 then
                    some (digitsToNat d)
                  else none)
              else none
            | [] => none))
    else none

/-- The structured job requirements mined from one JD text. -/
structure JobRequirements where
  skills : List Str
  responsibilities : List Str
  experience_years : ℕ
  education : List Str
deriving DecidableEq

/-- The miner `_extract_jd_requirements(jd_text)`: all four fields are mined from
`jd_text.lower()`. -/
def extract_jd_requirements (jd_text : Str) : JobRequirements :=
  let jd_lower := toLowerT jd_text
  { skills := mineSection hmSkills jd_lower
    responsibilities := mineSection hmResp jd_lower
    experience_years := (scanFirst matchJDExpAt jd_lower).getD 0
    education := mineSection hmEdu jd_lower }

/-! ## Extractor: `parse_resume_info` (resume_parser.py) -/

/-- The structured candidate record built by `parse_resume_info`. -/
structure CandidateRecord where
  name : Option Str
  email : Option Str
  phone : Option Str
  skills : List Str
  experience : List Str
  education : List Str
  raw_text : Str
deriving DecidableEq

/-- Python `str.split()` with no argument: split on whitespace runs,
dropping empty pieces. -/
def pySplitWS : Str → List Str
  | [] => []
  | c :: t =>
    if pyWS c then pySplitWS t
    else ((c :: t).takeWhile (fun d => !pyWS d)) :: pySplitWS (t.dropWhile (fun d => !pyWS d))
termination_by s => s.length
decreasing_by
  · simp only [List.length_cons]
    omega
  · have h := (@List.dropWhile_sublist Char t (fun d => !pyWS d)).length_le
    simp only [List.length_cons]
    omega

/-- Name step 1: the first named entity labelled PERSON whose text has at
least two whitespace-separated tokens (the entity recognizer is external;
its output enters as the list `ents` of (label, text) pairs). -/
def nameFromEnts (ents : List (Str × Str)) : Option Str :=
  (ents.find? (fun e => e.1 == "PERSON".data && decide (2 ≤ (pySplitWS e.2).length))).map
    (fun e => e.2)

/-- Regex `\d{10}`: does the line contain ten consecutive digits? -/
def tenDigitRun : Str → Bool
  | [] => false
  | c :: t =>
    (((c :: t).take 10).all isDigitC && decide (10 ≤ (c :: t).length)) || tenDigitRun t

/-- Name step 2 (fallback): first of the first three non-blank stripped
lines that has no `@`, no ten-digit run, and fewer than five tokens. -/
def nameFallback (text : Str) : Option Str :=
  let lns := ((splitOnChar '\n' text).map pyStrip).filter (fun l => !l.isEmpty)
  (lns.take 3).find? (fun line =>
    !line.contains '@' && !tenDigitRun line && decide ((pySplitWS line).length < 5))

/-- Local-part characters of the email regex, `[a-zA-Z0-9._%+-]`. -/
def isLocalChar (c : Char) : Bool :=
  isLetterC c || isDigitC c || c == '.' || c == '_' || c == '%' || c == '+' || c == '-'

/-- Domain characters of the email regex, `[a-zA-Z0-9.-]`. -/
def isDomChar (c : Char) : Bool :=
  isLetterC c || isDigitC c || c == '.' || c == '-'

/-- Backtracking of `[a-zA-Z0-9.-]+\.[a-zA-Z]{2,}` inside the maximal
domain-character run: the greedy `+` gives back characters until a dot
followed by at least two letters is found (largest split first). -/
def emailDomTail (dom : Str) : Option Str :=
  ((List.range dom.length).reverse.filterMap (fun k =>
    if 1 ≤ k then
      match dom.drop k with
      | '.' :: rest =>
        let lr := rest.takeWhile isLetterC
        if 2 ≤ lr.length then some (dom.take k ++ '.' :: lr) else none
      | _ => none
    else none)).head?

/-- Email regex `[a-zA-Z0-9._%+-]+@[a-zA-Z0-9.-]+\.[a-zA-Z]{2,}` attempted
at one position; returns the whole matched text. -/
def matchEmailAt (s : Str) : Option Str :=
  let loc := s.takeWhile isLocalChar
  if loc.isEmpty then none
  else
    match s.drop loc.length with
    | '@' :: rest =>
      let dom := rest.takeWhile isDomChar
      (emailDomTail dom).map (fun tl => loc ++ '@' :: tl)
    | _ => none

/-- Exactly `k` digits (`\d{k}`); returns the digits and the remainder. -/
def tryDigits (k : ℕ) (s : Str) : Option (Str × Str) :=
  let d := s.take k
  if decide (d.length = k) && d.all isDigitC then some (d, s.drop k) else none

/-- Separator class `[-. (]` of the phone regex. -/
def isSep1 (c : Char) : Bool := c == '-' || c == '.' || c == ' ' || c == '('

/-- Separator class `[-. )]` of the phone regex. -/
def isSep2 (c : Char) : Bool := c == '-' || c == '.' || c == ' ' || c == ')'

/-- Separator class `[-. ]` of the phone regex. -/
def isSep3 (c : Char) : Bool := c == '-' || c == '.' || c == ' '

/-- Greedy trials of `(\d{1,3})`: three digits first, then two, then one. -/
def digitTrials13 (s : Str) : List (Str × Str) :=
  [3, 2, 1].filterMap (fun k => tryDigits k s)

/-- Trials of the optional country-code group `(?:\+?(\d{1,3}))?` in engine
order: with `+`, without `+`, group absent (group value `''`). -/
def countryTrials (s : Str) : List (Str × Str) :=
  (match s with
   | '+' :: t => digitTrials13 t
   | _ => []) ++ digitTrials13 s ++ [([], s)]

/-- The optional extension group `(?: *x(\d+))?`; returns the group-5 text
(empty when absent). -/
def phoneExt (s : Str) : Str :=
  let r := s.dropWhile (fun c => c == ' ')
  match r with
  | 'x' :: t =>
    let d := t.takeWhile isDigitC
    if d.isEmpty then [] else d
  | _ => []

/-- Phone regex
`(?:\+?(\d{1,3}))?[-. (]*(\d{3})[-. )]*(\d{3})[-. ]*(\d{4})(?: *x(\d+))?`
attempted at one position; the stored value is `''.join` of the five
group strings. -/
def matchPhoneAt (s : Str) : Option Str :=
  (countryTrials s).findSome? (fun g1r =>
    let r2 := g1r.2.dropWhile isSep1
    (tryDigits 3 r2).bind (fun g2r =>
      let r3 := g2r.2.dropWhile isSep2
      (tryDigits 3 r3).bind (fun g3r =>
        let r4 := g3r.2.dropWhile isSep3
        (tryDigits 4 r4).map (fun g4r =>
          g1r.1 ++ g2r.1 ++ g3r.1 ++ g4r.1 ++ phoneExt g4r.2))))

/-- The parser's experience regex
`(\d+)\s*(?:years|yrs?)\s+(?:of)?\s*(?:experience|exp|background)`
attempted at one position. -/
def matchResumeYearsAt (s : Str) : Option ℕ :=
  match s with
  | [] => none
  | c :: _ =>
    if isDigitC c then
      let d := s.takeWhile isDigitC
      let r1 := (s.drop d.length).dropWhile pyWS
      (["years".data, "yrs".data, "yr".data].filterMap (fun y => matchLit y r1)).findSome?
        (fun r2 =>
          match r2 with
          | c2 :: t2 =>
            if pyWS c2 then
              let r3 := t2.dropWhile pyWS
              let ofRems : List Str :=
                (match matchLit "of".data r3 with
                 | some t3 => [t3]
                 | none => []) ++ [r3]
              ofRems.findSome? (fun r4 =>
                let r5 := r4.dropWhile pyWS
                if pfxT "experience".data r5 || pfxT "exp".data r5 ||
                    pfxT "background".data r5 then
                  some (digitsToNat d)
                else none)
            else none
          | [] => none)
    else none

/-- Lazy capture of the parser's section regex `(?:KW)\s*(.*?)(\n\n|$)`:
without `re.MULTILINE`, `$` matches at the end of the text or just before
a final newline. -/
def sectionDollarCapture : Str → Str
  | [] => []
  | ['\n'] => []
  | '\n' :: '\n' :: _ => []
  | c :: t => c :: sectionDollarCapture t

/-- The value `match.group(0)` of the parser's section regex: the keyword, the
greedy whitespace, the lazy capture and the matched terminator text. -/
def sectionZero (kw : Str) (text : Str) : Option Str :=
  (scanFirst (matchLit kw) text).map (fun rem =>
    let w := rem.takeWhile pyWS
    let body := rem.drop w.length
    let cap := sectionDollarCapture body
    let termTxt : Str :=
      match body.drop cap.length with
      | '\n' :: '\n' :: _ => '\n' :: ['\n']
      | _ => []
    kw ++ w ++ cap ++ termTxt)

/-- Trials of `\.?\s?X` (optional dot, optional single whitespace, a fixed
final character) in engine order. -/
def dotWsAfter (c2 : Char) (s : Str) : List Str :=
  (match s with
   | '.' :: w :: b :: r => if pyWS w ∧ b = c2 then [r] else []
   | _ => []) ++
  (match s with
   | '.' :: b :: r => if b = c2 then [r] else []
   | _ => []) ++
  (match s with
   | w :: b :: r => if pyWS w ∧ b = c2 then [r] else []
   | _ => []) ++
  (match s with
   | b :: r => if b = c2 then [r] else []
   | _ => [])

/-- The degree alternation
`(?:b\.?\s?s|m\.?\s?s|b\.?\s?a|ph\.?\s?d|bachelor|master|doctor|eng\.)`:
remainders after each alternative, in engine order. -/
def degAltTails (s : Str) : List Str :=
  (match s with
   | 'b' :: t => dotWsAfter 's' t
   | _ => []) ++
  (match s with
   | 'm' :: t => dotWsAfter 's' t
   | _ => []) ++
  (match s with
   | 'b' :: t => dotWsAfter 'a' t
   | _ => []) ++
  (match matchLit "ph".data s with
   | some t => dotWsAfter 'd' t
   | none => []) ++
  (match matchLit "bachelor".data s with
   | some t => [t]
   | none => []) ++
  (match matchLit "master".data s with
   | some t => [t]
   | none => []) ++
  (match matchLit "doctor".data s with
   | some t => [t]
   | none => []) ++
  (match matchLit "eng.".data s with
   | some t => [t]
   | none => [])

/-- The tail `(?:in|of)\s+([a-zA-Z\s]+)`: the two-letter word, then greedy `\s+`
(giving back one trailing whitespace character when the letter run after
it would be empty), then the greedy captured run. -/
def degInOf (r : Str) : Option Str :=
  (matchLit "in".data r <|> matchLit "of".data r).bind (fun r2 =>
    let w := r2.takeWhile pyWS
    if w.isEmpty then none
    else
      let g := (r2.drop w.length).takeWhile (fun c => isLetterC c || pyWS c)
      if !g.isEmpty then some g
      else if 2 ≤ w.length then
        match w.reverse with
        | c :: _ => some [c]
        | [] => none
      else none)

/-- The lazy gap `[^.\n]*?` between the degree alternative and `(?:in|of)`:
try the continuation first, then extend over one non-dot non-newline
character. -/
def degGapScan : Str → Option Str
  | [] => none
  | c :: t =>
    match degInOf (c :: t) with
    | some g => some g
    | none => if c = '.' ∨ c = '\n' then none else degGapScan t

/-- The degree regex attempted at one position; returns group 1. -/
def matchDegreeAt (s : Str) : Option Str :=
  (degAltTails s).findSome? degGapScan

/-- First branch of the university regex,
`(?:university|institute|college|school)\s+of\s+([a-zA-Z\s]+)`. -/
def uniAlt1 (s : Str) : Option Str :=
  (["university".data, "institute".data, "college".data, "school".data].filterMap
      (fun k => matchLit k s)).findSome? (fun r =>
    (matchWS1 r).bind (fun r2 =>
      (matchLit "of".data r2).bind (fun r3 =>
        let w := r3.takeWhile pyWS
        if w.isEmpty then none
        else
          let g := (r3.drop w.length).takeWhile (fun c => isLetterC c || pyWS c)
          if !g.isEmpty then some g
          else if 2 ≤ w.length then
            match w.reverse with
            | c :: _ => some [c]
            | [] => none
          else none)))

/-- Second branch of the university regex,
`([a-zA-Z\s]+(?:university|institute|college))`: the greedy class run
gives back characters until a keyword matches (largest split first). -/
def uniAlt2 (s : Str) : Option Str :=
  let run := s.takeWhile (fun c => isLetterC c || pyWS c)
  ((List.range run.length).reverse.filterMap (fun j =>
    if 1 ≤ j then
      (["university".data, "institute".data, "college".data].filterMap (fun k =>
        if pfxT k (s.drop j) then some (s.take j ++ k) else none)).head?
    else none)).head?

/-- The university regex attempted at one position; returns the pair of
group values (the group not taken is the empty string, as in `findall`). -/
def matchUniAt (s : Str) : Option (Str × Str) :=
  match uniAlt1 s with
  | some g1 => some (g1, [])
  | none =>
    match uniAlt2 s with
    | some g2 => some ([], g2)
    | none => none

/-- Regex `\w` (ASCII). -/
def isWordChar (c : Char) : Bool := isLetterC c || isDigitC c || c == '_'

/-- The year regex `\b(?:19|20)\d{2}\b` minus the leading boundary,
attempted at one position. -/
def yearAt (s : Str) : Option Str :=
  match s with
  | a :: b :: c :: d :: rest =>
    if ((a = '1' ∧ b = '9') ∨ (a = '2' ∧ b = '0')) ∧ isDigitC c ∧ isDigitC d ∧
        (match rest with
         | [] => true
         | e :: _ => !isWordChar e) = true then
      some [a, b, c, d]
    else none
  | _ => none

/-- Scan for the year regex with the preceding character tracked for the
leading `\b`. -/
def scanYearAux : Char → Str → Option Str
  | _, [] => none
  | p, c :: t =>
    (if ¬ isWordChar p then yearAt (c :: t) else none) <|> scanYearAux c t

/-- First match of `\b(?:19|20)\d{2}\b`. -/
def findYear (s : Str) : Option Str :=
  match s with
  | [] => none
  | c :: t => yearAt (c :: t) <|> scanYearAux c t

/-- The degree/university/year analysis applied to the education section
text (`match.group(0)`), appending at most one tagged fragment each, in
source order. -/
def eduFromSection (sec : Str) : List Str :=
  (match scanFirst matchDegreeAt sec with
   | some deg => ["Degree: ".data ++ pyStrip deg]
   | none => []) ++
  (match scanFirst matchUniAt sec with
   | some u => ["University: ".data ++ pyStrip (if u.1.isEmpty then u.2 else u.1)]
   | none => []) ++
  (match findYear sec with
   | some y => ["Year: ".data ++ y]
   | none => [])

/-- The education keywords, in loop order. -/
def eduKeywords : List Str :=
  ["education".data, "academic background".data, "qualifications".data]

/-- The education step of `parse_resume_info`: first keyword present in
the lowercased text wins; its section is analysed. -/
def educationOf (textLower : Str) : List Str :=
  match eduKeywords.find? (fun k => isSubT k textLower) with
  | some k =>
    match sectionZero k textLower with
    | some sec => eduFromSection sec
    | none => []
  | none => []

/-- The extractor `parse_resume_info(resume_text)`.  `vocab` is `KNOWN_SKILLS` (loaded
from the external skills file) and `ents` is `doc.ents` from the external
entity recognizer; both are dependencies of the function, not part of its
own logic.  The source also computes an `experience_section` string that
it never uses; it has no effect on the returned record. -/
def parse_resume_info (vocab : List Str) (ents : List (Str × Str)) (resume_text : Str) :
    CandidateRecord :=
  let text_lower := toLowerT resume_text
  { name := nameFromEnts ents <|> nameFallback resume_text
    email := scanFirst matchEmailAt resume_text
    phone := scanFirst matchPhoneAt resume_text
    skills := vocab.filter (fun sk => isSubT (toLowerT sk) text_lower)
    experience :=
      match scanFirst matchResumeYearsAt text_lower with
      | some n => [natTxt n ++ " years experience".data]
      | none => []
    education := educationOf text_lower
    raw_text := resume_text }

/-- Insertion step for `load_common_skills`: each line stripped and lowercased, deduplicated
(the set), then sorted by descending length. -/
def insLen (x : Str) : List Str → List Str
  | [] => [x]
  | y :: ys => if y.length ≤ x.length then x :: y :: ys else y :: insLen x ys

/-- Sort by descending length (the `sort(key=len, reverse=True)`). -/
def sortLenDesc (l : List Str) : List Str := l.foldr insLen []

/-- The loader `load_common_skills(file)` as a function of the file's lines. -/
def load_common_skills (fileLines : List Str) : List Str :=
  sortLenDesc ((fileLines.map (fun l => toLowerT (pyStrip l))).dedup)

/-! ## Weighted scorer: `score_resume` (scoring_logic.py) -/

/-- Torch `tensor.max()` over a row of cosine similarities. -/
def maxQ : List ℚ → ℚ
  | [] => 0
  | x :: xs => xs.foldl max x

/-- The scorer's resume-side experience regex `(\d+)\s+years`
(`re.IGNORECASE`, so the literal is compared on lowercased text)
attempted at one position. -/
def matchScorerYearsAt (s : Str) : Option ℕ :=
  match s with
  | [] => none
  | c :: _ =>
    if isDigitC c then
      let d := s.takeWhile isDigitC
      match s.drop d.length with
      | c2 :: t2 =>
        if pyWS c2 then
          if pfxT "years".data (toLowerT (t2.dropWhile pyWS)) then some (digitsToNat d)
          else none
        else none
      | [] => none
    else none

/-- The scorer's `experience_years_in_resume`: 0 unless the record's experience list is
non-empty and the regex finds a match in the space-joined experience text. -/
def expYearsInResume (r : CandidateRecord) : ℕ :=
  match r.experience with
  | [] => 0
  | _ :: _ => (scanFirst matchScorerYearsAt (joinSpace r.experience)).getD 0

/-- Skill sub-score and its reasoning sentence (section 1 of `score_resume`).
`sim` is the similarity oracle; the count is of JD skills whose best
cosine similarity against the resume skills exceeds 0.6. -/
def skillPart (sim : Str → Str → ℚ) (jdSkills resumeSkills : List Str) : ℚ × Str :=
  match jdSkills, resumeSkills with
  | [], _ => (100, "No specific skills required in JD.".data)
  | _ :: _, [] => (0, "No skills found in resume to match against JD skills.".data)
  | _ :: _, _ :: _ =>
    let matched :=
      (jdSkills.filter (fun js =>
        (0.6 : ℚ) < maxQ (resumeSkills.map (fun rs => sim js rs)))).length
    let score : ℚ := ((matched : ℚ) / (jdSkills.length : ℚ)) * 100
    (score,
      "Matched ".data ++ natTxt matched ++ "/".data ++ natTxt jdSkills.length ++
        " key skills (".data ++ intTxt (pyInt score) ++ "%).".data)

/-- Experience sub-score and its reasoning sentence (section 2 of
`score_resume`).  The inner dead conditional of line 127 is kept. -/
def expPart (jdMin n : ℕ) : ℚ × Str :=
  if 0 < jdMin then
    if jdMin ≤ n then
      (100,
        "Meets/Exceeds ".data ++ natTxt jdMin ++ " years experience (".data ++
          natTxt n ++ " years found).".data)
    else
      ((if 0 < jdMin then ((n : ℚ) / (jdMin : ℚ)) * 100 else 0),
        "Has ".data ++ natTxt n ++ " years experience (requires ".data ++
          natTxt jdMin ++ ").".data)
  else (100, "No minimum experience required in JD.".data)

/-- Responsibility sub-score and its reasoning sentence (section 3 of
`score_resume`). -/
def respPart (sim : Str → Str → ℚ) (jdResp : List Str) (raw : Str) : ℚ × Str :=
  if jdResp ≠ [] ∧ raw ≠ [] then
    let s := sim (joinSpace jdResp) raw * 100
    (s,
      "Overall resume content aligns with responsibilities (".data ++
        intTxt (pyInt s) ++ "%).".data)
  else (50, "Cannot assess responsibilities due to missing JD or resume content.".data)

/-- Education sub-score and its reasoning sentence (section 4 of
`score_resume`). -/
def eduPart (jdEdu : List Str) (eduText : Str) : ℚ × Str :=
  match jdEdu with
  | [] => (100, "No specific education required in JD.".data)
  | _ :: _ =>
    let matched : ℕ :=
      if jdEdu.any (fun e => isSubT (toLowerT e) (toLowerT eduText)) then 1 else 0
    ((matched : ℚ) * 100,
      "Education matches JD requirements (".data ++
        intTxt (pyInt ((matched : ℚ) * 100)) ++ "%).".data)

/-- The scorer `score_resume(parsed_resume_data, job_description_text, sbert_model)`:
the four weighted sub-scores accumulated in source order, rounded to two
decimals, and the reasoning sentences joined with single spaces. -/
def score_resume (sim : Str → Str → ℚ) (r : CandidateRecord) (jd_text : Str) : ℚ × Str :=
  let jd := extract_jd_requirements jd_text
  let sk := skillPart sim jd.skills r.skills
  let ex := expPart jd.experience_years (expYearsInResume r)
  let rp := respPart sim jd.responsibilities r.raw_text
  let ed := eduPart jd.education (joinSpace r.education)
  let total : ℚ := 0 + sk.1 * 0.40 + ex.1 * 0.30 + rp.1 * 0.20 + ed.1 * 0.10
  (pyRound2 total, joinSpace [sk.2, ex.2, rp.2, ed.2])

/-! ## Auxiliary definitions for the claim statements -/

/-- A header matcher whose remainder only uses characters of its input. -/
def HmSub (hm : Str → Option Str) : Prop := ∀ s r, hm s = some r → r ⊆ s

/-- All suffixes of a text, longest first, ending with `[]`. -/
def suffixesL : Str → List Str
  | [] => [[]]
  | c :: t => (c :: t) :: suffixesL t

/-- Capture phrased as in the (amended) claim C3: take the text up to the
first position at which a terminator — blank line, heading, or end of
text — matches. -/
def captureSpec (s : Str) : Str :=
  s.take ((suffixesL s).findIdx (fun t => termStop t || t.isEmpty))

/-- Splitting phrased as in claim C3: split on commas, then split every
piece on semicolons, then split every piece on newlines. -/
def splitNested (s : Str) : List Str :=
  ((splitOnChar ',' s).flatMap (splitOnChar ';')).flatMap (splitOnChar '\n')

/-- One section mined as the amended claim C3 describes it: find the
header synonym, skip an optional colon and any following whitespace,
capture up to the first terminator, strip all `*`/`-`/`•`, strip outer
whitespace, split on commas/semicolons/newlines, trim every fragment and
drop the empty ones. -/
def mineSectionSpec (hm : Str → Option Str) (textLower : Str) : List Str :=
  match sectionAfter hm textLower with
  | none => []
  | some rest =>
    ((splitNested (pyStrip (removeBullets (captureSpec rest)))).map pyStrip).filter
      (fun f => !f.isEmpty)

/-- The heading terminator under claim C3's literal wording: a
title-cased heading, i.e. a newline followed by a strict uppercase
letter `[A-Z]`, then letters/whitespace, then a colon. -/
def headingTermTitleAt : Str → Bool
  | '\n' :: c :: rest =>
    ('A' ≤ c && c ≤ 'Z') &&
      (let run := rest.takeWhile (fun d => isLetterC d || pyWS d)
       !run.isEmpty &&
         (match rest.drop run.length with
          | ':' :: _ => true
          | _ => false))
  | _ => false

/-- Terminator under claim C3's literal wording. -/
def termStopTitle (s : Str) : Bool := blankTermAt s || headingTermTitleAt s

/-- Lazy capture under claim C3's literal wording. -/
def lazyCaptureTitle : Str → Str
  | [] => []
  | c :: t => if termStopTitle (c :: t) then [] else c :: lazyCaptureTitle t

/-- One section mined as claim C3 literally states it: the capture stops
only at a blank line, a title-cased heading line, or the end of text. -/
def mineSectionTitle (hm : Str → Option Str) (textLower : Str) : List Str :=
  match sectionAfter hm textLower with
  | none => []
  | some rest => fragsOf (removeBullets (lazyCaptureTitle rest))

/-! ## Basic lemmas about the text model -/

theorem toNat_ofNat_small (n : ℕ) (h : n < 55296) : (Char.ofNat n).toNat = n := by
  have hv : n.isValidChar := Or.inl h
  unfold Char.ofNat
  rw [dif_pos hv]
  unfold Char.ofNatAux
  simp [Char.toNat, UInt32.toNat]

theorem toLower_eq_of_big (c : Char) (h : ¬(c.toNat ≥ 65 ∧ c.toNat ≤ 90)) :
    Char.toLower c = c := by
  show (if c.toNat ≥ 65 ∧ c.toNat ≤ 90 then Char.ofNat (c.toNat + 32) else c) = c
  rw [if_neg h]

theorem toLower_eq_of_upper (c : Char) (h : c.toNat ≥ 65 ∧ c.toNat ≤ 90) :
    Char.toLower c = Char.ofNat (c.toNat + 32) := by
  show (if c.toNat ≥ 65 ∧ c.toNat ≤ 90 then Char.ofNat (c.toNat + 32) else c) =
    Char.ofNat (c.toNat + 32)
  rw [if_pos h]

/-- Python `str.lower` is idempotent on characters. -/
theorem lowChar_idem (c : Char) : lowChar (lowChar c) = lowChar c := by
  show Char.toLower (Char.toLower c) = Char.toLower c
  by_cases h : c.toNat ≥ 65 ∧ c.toNat ≤ 90
  · rw [toLower_eq_of_upper c h]
    have h32 : (Char.ofNat (c.toNat + 32)).toNat = c.toNat + 32 :=
      toNat_ofNat_small _ (by omega)
    refine toLower_eq_of_big _ ?_
    rw [h32]
    omega
  · rw [toLower_eq_of_big c h, toLower_eq_of_big c h]

theorem pyWS_eq_false_of_big (d : Char) (h : 33 ≤ d.toNat) : pyWS d = false := by
  simp only [pyWS, Bool.or_eq_false_iff, beq_eq_false_iff_ne, ne_eq]
  refine ⟨⟨⟨⟨⟨?_, ?_⟩, ?_⟩, ?_⟩, ?_⟩, ?_⟩ <;>
    (intro he; subst he; exact absurd h (by decide))

/-- Lowercasing does not change whitespace-ness. -/
theorem pyWS_lowChar (c : Char) : pyWS (lowChar c) = pyWS c := by
  show pyWS (Char.toLower c) = pyWS c
  by_cases h : c.toNat ≥ 65 ∧ c.toNat ≤ 90
  · rw [toLower_eq_of_upper c h]
    have h32 : (Char.ofNat (c.toNat + 32)).toNat = c.toNat + 32 :=
      toNat_ofNat_small _ (by omega)
    rw [pyWS_eq_false_of_big _ (by rw [h32]; omega), pyWS_eq_false_of_big _ (by omega)]
  · rw [toLower_eq_of_big c h]

/-- Characters of a lowercased text are fixed points of `lowChar`. -/
theorem lowChar_of_mem_toLowerT {c : Char} {s : Str} (h : c ∈ toLowerT s) :
    lowChar c = c := by
  obtain ⟨d, _, rfl⟩ := List.mem_map.mp h
  exact lowChar_idem d

/-- A list all of whose characters are `lowChar`-fixed is its own lowercasing. -/
theorem toLowerT_eq_self_of_forall {s : Str} (h : ∀ c ∈ s, lowChar c = c) :
    toLowerT s = s := by
  induction s with
  | nil => rfl
  | cons c t ih =>
    simp only [toLowerT, List.map_cons] at *
    rw [h c (by simp), ih (fun d hd => h d (by simp [hd]))]

theorem pfxT_iff (p : Str) : ∀ s : Str, pfxT p s = true ↔ p <+: s := by
  induction p with
  | nil => intro s; simp [pfxT]
  | cons a x ih =>
    intro s
    cases s with
    | nil => simp [pfxT]
    | cons b y =>
      by_cases hab : a = b
      · subst hab
        simp [pfxT, ih, List.cons_prefix_cons]
      · simp [pfxT, hab, List.cons_prefix_cons]

theorem isSubT_iff (n : Str) : ∀ h : Str, isSubT n h = true ↔ n <:+: h := by
  intro h
  induction h with
  | nil =>
    simp [isSubT, List.isEmpty_iff]
  | cons c t ih =>
    simp only [isSubT, Bool.or_eq_true, pfxT_iff, ih]
    exact (List.infix_cons_iff).symm

/-- A reasoning sentence is a substring of the space-joined reasoning. -/
theorem infix_joinSpace {x : Str} : ∀ {ps : List Str}, x ∈ ps → x <:+: joinSpace ps := by
  intro ps
  induction ps with
  | nil => intro h; cases h
  | cons a t ih =>
    intro h
    cases t with
    | nil =>
      have hx : x = a := by simpa using h
      subst hx
      exact List.infix_refl x
    | cons b t2 =>
      rcases List.mem_cons.mp h with rfl | hmem
      · exact ⟨[], ' ' :: joinSpace (b :: t2), by simp [joinSpace]⟩
      · obtain ⟨u, v, huv⟩ := ih hmem
        exact ⟨a ++ ' ' :: u, v, by simp [joinSpace, ← huv]⟩

theorem roundHE_ge_floor (x : ℚ) : ⌊x⌋ ≤ roundHE x := by
  unfold roundHE
  split_ifs <;> omega

theorem roundHE_le_ceil (x : ℚ) : roundHE x ≤ ⌈x⌉ := by
  unfold roundHE
  split_ifs with h1 h2 h3
  · exact Int.floor_le_ceil x
  · have hf : (⌊x⌋ : ℚ) < x := by linarith
    have := Int.lt_ceil.mpr hf
    omega
  · exact Int.floor_le_ceil x
  · have hf : (⌊x⌋ : ℚ) < x := by
      have hr : x - (⌊x⌋ : ℚ) = 1/2 := le_antisymm (not_lt.mp h2) (not_lt.mp h1)
      linarith
    have := Int.lt_ceil.mpr hf
    omega

/-- Rounding `round(x, 2)` stays inside `[0, 100]` on `[0, 100]`. -/
theorem pyRound2_bounds {x : ℚ} (h0 : 0 ≤ x) (h1 : x ≤ 100) :
    0 ≤ pyRound2 x ∧ pyRound2 x ≤ 100 := by
  have hf : (0 : ℤ) ≤ ⌊x * 100⌋ := Int.floor_nonneg.mpr (by positivity)
  have hge := roundHE_ge_floor (x * 100)
  have hle := roundHE_le_ceil (x * 100)
  have hc : ⌈x * 100⌉ ≤ 10000 := Int.ceil_le.mpr (by push_cast; linarith)
  have hlo : (0 : ℚ) ≤ (roundHE (x * 100) : ℚ) := by exact_mod_cast le_trans hf hge
  have hhi : ((roundHE (x * 100)) : ℚ) ≤ 10000 := by exact_mod_cast le_trans hle hc
  unfold pyRound2
  constructor
  · exact div_nonneg hlo (by norm_num)
  · rw [div_le_iff₀ (by norm_num : (0 : ℚ) < 100)]
    linarith

/-! ## Claim C1 -/

/-- Claim C1: for every candidate record and job-description text (and any
similarity oracle), `score_resume` returns a final score equal to
`0.40*skill + 0.30*experience + 0.20*responsibility + 0.10*education`
rounded to two decimal places, and this value lies in `[0, 100]` whenever
each of the four sub-scores lies in `[0, 100]`. -/
theorem c1_final_score_formula_and_bounds (sim : Str → Str → ℚ) (r : CandidateRecord)
    (jd_text : Str) :
    (score_resume sim r jd_text).1 =
      pyRound2
        (0.40 * (skillPart sim (extract_jd_requirements jd_text).skills r.skills).1 +
         0.30 * (expPart (extract_jd_requirements jd_text).experience_years
            (expYearsInResume r)).1 +
         0.20 * (respPart sim (extract_jd_requirements jd_text).responsibilities r.raw_text).1 +
         0.10 * (eduPart (extract_jd_requirements jd_text).education (joinSpace r.education)).1) ∧
    ((0 ≤ (skillPart sim (extract_jd_requirements jd_text).skills r.skills).1 ∧
        (skillPart sim (extract_jd_requirements jd_text).skills r.skills).1 ≤ 100 ∧
      0 ≤ (expPart (extract_jd_requirements jd_text).experience_years
            (expYearsInResume r)).1 ∧
        (expPart (extract_jd_requirements jd_text).experience_years
            (expYearsInResume r)).1 ≤ 100 ∧
      0 ≤ (respPart sim (extract_jd_requirements jd_text).responsibilities r.raw_text).1 ∧
        (respPart sim (extract_jd_requirements jd_text).responsibilities r.raw_text).1 ≤ 100 ∧
      0 ≤ (eduPart (extract_jd_requirements jd_text).education (joinSpace r.education)).1 ∧
        (eduPart (extract_jd_requirements jd_text).education (joinSpace r.education)).1 ≤ 100) →
      0 ≤ (score_resume sim r jd_text).1 ∧ (score_resume sim r jd_text).1 ≤ 100) := by
  constructor
  · show pyRound2 _ = pyRound2 _
    exact congrArg pyRound2 (by ring)
  · intro hb
    obtain ⟨h1, h2, h3, h4, h5, h6, h7, h8⟩ := hb
    show 0 ≤ pyRound2 _ ∧ pyRound2 _ ≤ 100
    exact pyRound2_bounds (by norm_num; linarith) (by norm_num; linarith)

/-- Witness for C1 at a concrete record, JD text and oracle. -/
theorem c1_final_score_formula_and_bounds_witness :
    0 ≤ (score_resume (fun _ _ => 1/2)
        ⟨none, none, none, [], [], [], []⟩ "skills: java".data).1 ∧
      (score_resume (fun _ _ => 1/2)
        ⟨none, none, none, [], [], [], []⟩ "skills: java".data).1 ≤ 100 :=
  (c1_final_score_formula_and_bounds (fun _ _ => 1/2)
      ⟨none, none, none, [], [], [], []⟩ "skills: java".data).2
    (by refine ⟨?_, ?_, ?_, ?_, ?_, ?_, ?_, ?_⟩ <;> decide)

/-! ## Claims C5 and C8 (experience sub-score) -/

/-- Claim C5: for every candidate record and mined requirements, the
experience sub-score is 100 when the mined minimum is 0, 100 when the
parsed candidate years reach the minimum, and `100*years/minimum`
otherwise; in particular it is 0 whenever the parsed years are 0 and a
positive minimum is required. -/
theorem c5_experience_subscore (r : CandidateRecord) (jd_text : Str) :
    ((expPart (extract_jd_requirements jd_text).experience_years (expYearsInResume r)).1 =
      if (extract_jd_requirements jd_text).experience_years = 0 then 100
      else if (extract_jd_requirements jd_text).experience_years ≤ expYearsInResume r then 100
      else 100 * (expYearsInResume r : ℚ) /
        ((extract_jd_requirements jd_text).experience_years : ℚ)) ∧
    (∀ m : ℕ, (expPart m 0).1 = if m = 0 then 100 else 0) := by
  constructor
  · unfold expPart
    split_ifs with h1 h2 h3 h4 h5 <;> first
      | rfl
      | omega
      | (exfalso; omega)
      | ring
  · intro m
    unfold expPart
    split_ifs with h1 h2 h3 <;> first
      | rfl
      | omega
      | simp

/-- Claim C8: for a fixed positive minimum, the experience sub-score is
monotone non-decreasing in the candidate's parsed years and equals 100
from the minimum upward. -/
theorem c8_experience_monotone (m n₁ n₂ : ℕ) (hm : 0 < m) (h12 : n₁ ≤ n₂) :
    (expPart m n₁).1 ≤ (expPart m n₂).1 ∧ (m ≤ n₂ → (expPart m n₂).1 = 100) := by
  have key : ∀ n, (expPart m n).1 = if m ≤ n then 100 else (n : ℚ) / (m : ℚ) * 100 := by
    intro n
    unfold expPart
    split_ifs with h1 h2 h3 h4 h5 <;> first
      | rfl
      | omega
      | (exfalso; omega)
  refine ⟨?_, fun hmn => by rw [key n₂, if_pos hmn]⟩
  rw [key n₁, key n₂]
  split_ifs with ha hb
  · exact le_refl _
  · omega
  · have h1m : (n₁ : ℚ) ≤ (m : ℚ) := by
      exact_mod_cast le_of_lt (lt_of_not_le ha)
    have hdiv : (n₁ : ℚ) / (m : ℚ) ≤ 1 := div_le_one_of_le₀ h1m (by positivity)
    linarith
  · have hc : (n₁ : ℚ) ≤ (n₂ : ℚ) := by exact_mod_cast h12
    have hm' : (0 : ℚ) < (m : ℚ) := by exact_mod_cast hm
    gcongr

/-- Witness for C8 with minimum 2 and years 1 ≤ 3. -/
theorem c8_experience_monotone_witness :
    (expPart 2 1).1 ≤ (expPart 2 3).1 ∧ (2 ≤ 3 → (expPart 2 3).1 = 100) :=
  c8_experience_monotone 2 1 3 (by decide) (by decide)

/-! ## Claim C6 (no skills required) -/

/-- Claim C6: whenever the mined requirements list zero skills, the skill
sub-score is exactly 100 — whatever the candidate's skills, including
none — and the reasoning notes that no skills are required. -/
theorem c6_zero_required_skills (sim : Str → Str → ℚ) (r : CandidateRecord) (jd_text : Str)
    (h : (extract_jd_requirements jd_text).skills = []) :
    (skillPart sim (extract_jd_requirements jd_text).skills r.skills).1 = 100 ∧
    "No specific skills required in JD.".data <:+: (score_resume sim r jd_text).2 := by
  constructor
  · rw [h]
    rfl
  · have h2 : (skillPart sim (extract_jd_requirements jd_text).skills r.skills).2 =
        "No specific skills required in JD.".data := by
      rw [h]
      rfl
    show "No specific skills required in JD.".data <:+: joinSpace [_, _, _, _]
    apply infix_joinSpace
    rw [← h2]
    exact List.mem_cons_self _ _

/-- Witness for C6: a JD with no skills header, a candidate with no skills. -/
theorem c6_zero_required_skills_witness :
    (skillPart (fun _ _ => (0 : ℚ))
        (extract_jd_requirements "nothing here".data).skills []).1 = 100 ∧
    "No specific skills required in JD.".data <:+:
      (score_resume (fun _ _ => (0 : ℚ))
        ⟨none, none, none, [], [], [], []⟩ "nothing here".data).2 :=
  c6_zero_required_skills (fun _ _ => (0 : ℚ))
    ⟨none, none, none, [], [], [], []⟩ "nothing here".data (by decide)

/-! ## Claim C7 (neutral responsibility score) -/

/-- Claim C7: if the mined requirements list no responsibilities or the
candidate record has empty raw text, the responsibility sub-score is the
neutral 50 and the reasoning notes the missing data. -/
theorem c7_responsibility_neutral (sim : Str → Str → ℚ) (r : CandidateRecord) (jd_text : Str)
    (h : (extract_jd_requirements jd_text).responsibilities = [] ∨ r.raw_text = []) :
    (respPart sim (extract_jd_requirements jd_text).responsibilities r.raw_text).1 = 50 ∧
    "Cannot assess responsibilities due to missing JD or resume content.".data <:+:
      (score_resume sim r jd_text).2 := by
  have hcond : ¬((extract_jd_requirements jd_text).responsibilities ≠ [] ∧ r.raw_text ≠ []) := by
    tauto
  constructor
  · unfold respPart
    rw [if_neg hcond]
  · have h2 : (respPart sim (extract_jd_requirements jd_text).responsibilities r.raw_text).2 =
        "Cannot assess responsibilities due to missing JD or resume content.".data := by
      unfold respPart
      rw [if_neg hcond]
    show _ <:+: joinSpace [_, _, _, _]
    apply infix_joinSpace
    rw [← h2]
    simp

/-- Witness for C7: a candidate record without raw text. -/
theorem c7_responsibility_neutral_witness :
    (respPart (fun _ _ => (1 : ℚ))
        (extract_jd_requirements "duties: ship code".data).responsibilities []).1 = 50 ∧
    "Cannot assess responsibilities due to missing JD or resume content.".data <:+:
      (score_resume (fun _ _ => (1 : ℚ))
        ⟨none, none, none, [], [], [], []⟩ "duties: ship code".data).2 :=
  c7_responsibility_neutral (fun _ _ => (1 : ℚ))
    ⟨none, none, none, [], [], [], []⟩ "duties: ship code".data (Or.inr rfl)

/-! ## Claim C4 (education sub-score) -/

/-- Claim C4: the education sub-score is 100 when no education terms were
mined; otherwise it is 100 exactly when some mined term is a
case-insensitive substring of the candidate's space-joined
education-signal text and 0 otherwise (binary, no partial credit); in
the empty case the reasoning carries the fixed sentence. -/
theorem c4_education_subscore (sim : Str → Str → ℚ) (r : CandidateRecord) (jd_text : Str) :
    ((eduPart (extract_jd_requirements jd_text).education (joinSpace r.education)).1 =
      if (extract_jd_requirements jd_text).education = [] then 100
      else if ∃ e ∈ (extract_jd_requirements jd_text).education,
          toLowerT e <:+: toLowerT (joinSpace r.education) then 100
      else 0) ∧
    ((extract_jd_requirements jd_text).education = [] →
      "No specific education required in JD.".data <:+: (score_resume sim r jd_text).2) := by
  constructor
  · rcases hE : (extract_jd_requirements jd_text).education with _ | ⟨a, t⟩
    · simp [eduPart]
    · rw [if_neg (by simp)]
      show (eduPart (a :: t) (joinSpace r.education)).1 = _
      by_cases hany :
          (a :: t).any (fun e => isSubT (toLowerT e) (toLowerT (joinSpace r.education))) = true
      · rw [if_pos ?side]
        case side =>
          obtain ⟨e, he, hsub⟩ := List.any_eq_true.mp hany
          exact ⟨e, he, (isSubT_iff _ _).mp hsub⟩
        simp [eduPart, hany]
      · rw [if_neg ?side]
        case side =>
          intro hex
          obtain ⟨e, he, hsub⟩ := hex
          exact hany (List.any_eq_true.mpr ⟨e, he, (isSubT_iff _ _).mpr hsub⟩)
        simp [eduPart, hany]
  · intro h
    have h2 : (eduPart (extract_jd_requirements jd_text).education (joinSpace r.education)).2 =
        "No specific education required in JD.".data := by
      rw [h]
      rfl
    show _ <:+: joinSpace [_, _, _, _]
    apply infix_joinSpace
    rw [← h2]
    simp

/-- Witness for C4: a JD with no education header. -/
theorem c4_education_subscore_witness :
    ((eduPart (extract_jd_requirements "skills: python".data).education
        (joinSpace [])).1 =
      if (extract_jd_requirements "skills: python".data).education = [] then 100
      else if ∃ e ∈ (extract_jd_requirements "skills: python".data).education,
          toLowerT e <:+: toLowerT (joinSpace []) then 100
      else 0) ∧
    "No specific education required in JD.".data <:+:
      (score_resume (fun _ _ => (0 : ℚ))
        ⟨none, none, none, [], [], [], []⟩ "skills: python".data).2 := by
  have h := c4_education_subscore (fun _ _ => (0 : ℚ))
    ⟨none, none, none, [], [], [], []⟩ "skills: python".data
  exact ⟨h.1, h.2 (by decide)⟩

/-! ## Claim C9 (skills invariant of the extractor) -/

/-- Claim C9: every extracted skill is a vocabulary entry whose lowercase
form is a substring of the lowercased raw text of the record (that is, a
literal case-insensitive substring of `raw_text`). -/
theorem c9_skills_vocabulary_substring (vocab : List Str) (ents : List (Str × Str))
    (text : Str) (s : Str) (h : s ∈ (parse_resume_info vocab ents text).skills) :
    s ∈ vocab ∧ toLowerT s <:+: toLowerT (parse_resume_info vocab ents text).raw_text := by
  have h' : s ∈ List.filter (fun sk => isSubT (toLowerT sk) (toLowerT text)) vocab := h
  obtain ⟨h1, h2⟩ := List.mem_filter.mp h'
  exact ⟨h1, (isSubT_iff _ _).mp h2⟩

/-- Witness for C9 on a one-entry vocabulary. -/
theorem c9_skills_vocabulary_substring_witness :
    "python".data ∈ ["python".data] ∧
    toLowerT "python".data <:+:
      toLowerT (parse_resume_info ["python".data] [] "I use Python daily".data).raw_text :=
  c9_skills_vocabulary_substring ["python".data] [] "I use Python daily".data
    "python".data (by decide)

/-! ## Character-membership preservation through the miner (for C10) -/

theorem orElse_eq_some {α : Type} {a b : Option α} {r : α} (h : (a <|> b) = some r) :
    a = some r ∨ b = some r := by
  cases a with
  | none => right; simpa using h
  | some v => left; simpa using h

theorem matchLit_subset {pat s r : Str} (h : matchLit pat s = some r) : r ⊆ s := by
  unfold matchLit at h
  split_ifs at h
  injection h with h'
  subst h'
  exact List.drop_subset _ _

theorem matchWS1_subset {s r : Str} (h : matchWS1 s = some r) : r ⊆ s := by
  cases s with
  | nil => exact absurd h (by simp [matchWS1])
  | cons c t =>
    have he : matchWS1 (c :: t) =
        if pyWS c = true then some (t.dropWhile pyWS) else none := rfl
    rw [he] at h
    split_ifs at h
    injection h with h'
    subst h'
    exact List.Subset.trans ((List.dropWhile_sublist _).subset) (List.subset_cons_self c t)

theorem litWsLit_subset {a b s r : Str} (h : litWsLit a b s = some r) : r ⊆ s := by
  unfold litWsLit at h
  obtain ⟨v, hv, h2⟩ := Option.bind_eq_some.mp h
  obtain ⟨w, hw, h3⟩ := Option.bind_eq_some.mp h2
  exact List.Subset.trans (matchLit_subset h3)
    (List.Subset.trans (matchWS1_subset hw) (matchLit_subset hv))

theorem hmSkills_sub : HmSub hmSkills := by
  intro s r h
  rcases orElse_eq_some h with h1 | h1
  · exact litWsLit_subset h1
  rcases orElse_eq_some h1 with h2 | h2
  · exact litWsLit_subset h2
  rcases orElse_eq_some h2 with h3 | h3
  · exact matchLit_subset h3
  · exact litWsLit_subset h3

theorem hmResp_sub : HmSub hmResp := by
  intro s r h
  rcases orElse_eq_some h with h1 | h1
  · exact litWsLit_subset h1
  rcases orElse_eq_some h1 with h2 | h2
  · exact matchLit_subset h2
  · exact matchLit_subset h2

theorem hmEdu_sub : HmSub hmEdu := by
  intro s r h
  rcases orElse_eq_some h with h1 | h1
  · exact matchLit_subset h1
  rcases orElse_eq_some h1 with h2 | h2
  · exact matchLit_subset h2
  · exact litWsLit_subset h2

theorem searchHdr_subset {hm : Str → Option Str} (hsub : HmSub hm) :
    ∀ {text r : Str}, searchHdr hm text = some r → r ⊆ text := by
  intro text
  induction text with
  | nil => intro r h; cases h
  | cons c t ih =>
    intro r h
    rcases orElse_eq_some h with h1 | h1
    · exact hsub _ _ h1
    · exact List.Subset.trans (ih h1) (List.subset_cons_self c t)

theorem dropColon_subset (s : Str) : dropColon s ⊆ s := by
  unfold dropColon
  split
  · exact List.subset_cons_self ':' _
  · exact fun a ha => ha

theorem sectionAfter_subset {hm : Str → Option Str} (hsub : HmSub hm) {text rest : Str}
    (h : sectionAfter hm text = some rest) : rest ⊆ text := by
  unfold sectionAfter at h
  obtain ⟨rem, hrem, hrest⟩ := Option.map_eq_some'.mp h
  subst hrest
  exact List.Subset.trans ((List.dropWhile_sublist _).subset)
    (List.Subset.trans (dropColon_subset rem) (searchHdr_subset hsub hrem))

theorem lazyCapture_subset (s : Str) : lazyCapture s ⊆ s := by
  induction s with
  | nil => exact fun a ha => ha
  | cons c t ih =>
    unfold lazyCapture
    split_ifs
    · exact List.nil_subset _
    · exact List.cons_subset_cons c ih

theorem removeBullets_subset (s : Str) : removeBullets s ⊆ s :=
  (List.filter_sublist _).subset

theorem pyStrip_subset (s : Str) : pyStrip s ⊆ s := by
  intro c hc
  unfold pyStrip at hc
  rw [List.mem_reverse] at hc
  have hc2 := (List.dropWhile_sublist pyWS).subset hc
  rw [List.mem_reverse] at hc2
  exact (List.dropWhile_sublist pyWS).subset hc2

theorem splitAny_ne_nil (p : Char → Bool) (s : Str) : splitAny p s ≠ [] := by
  induction s with
  | nil => simp [splitAny]
  | cons c t ih =>
    unfold splitAny
    split_ifs
    · simp
    · match h : splitAny p t with
      | [] => exact absurd h ih
      | q :: qs => simp [consHead]

theorem splitAny_piece_subset (p : Char → Bool) :
    ∀ (s : Str) (q : Str), q ∈ splitAny p s → q ⊆ s := by
  intro s
  induction s with
  | nil =>
    intro q hq
    simp only [splitAny, List.mem_singleton] at hq
    subst hq
    exact List.nil_subset _
  | cons c t ih =>
    intro q hq
    unfold splitAny at hq
    split_ifs at hq
    · rcases List.mem_cons.mp hq with rfl | hmem
      · exact List.nil_subset _
      · exact List.Subset.trans (ih q hmem) (List.subset_cons_self c t)
    · match hsp : splitAny p t with
      | [] => exact absurd hsp (splitAny_ne_nil p t)
      | h0 :: tl =>
        rw [hsp] at hq
        simp only [consHead] at hq
        rcases List.mem_cons.mp hq with rfl | hmem
        · have h0t : h0 ⊆ t := ih h0 (by rw [hsp]; exact List.mem_cons_self _ _)
          exact List.cons_subset_cons c h0t
        · exact List.Subset.trans (ih q (by rw [hsp]; exact List.mem_cons_of_mem _ hmem))
            (List.subset_cons_self c t)

theorem fragsOf_subset {cleaned f : Str} (h : f ∈ fragsOf cleaned) : f ⊆ cleaned := by
  unfold fragsOf at h
  obtain ⟨hmem, _⟩ := List.mem_filter.mp h
  obtain ⟨q, hq, rfl⟩ := List.mem_map.mp hmem
  exact List.Subset.trans (pyStrip_subset q)
    (List.Subset.trans (splitAny_piece_subset _ _ q hq) (pyStrip_subset cleaned))

theorem mineSection_subset {hm : Str → Option Str} (hsub : HmSub hm) {tl f : Str}
    (h : f ∈ mineSection hm tl) : f ⊆ tl := by
  unfold mineSection at h
  match hsa : sectionAfter hm tl with
  | none => rw [hsa] at h; cases h
  | some rest =>
    rw [hsa] at h
    exact List.Subset.trans (fragsOf_subset h)
      (List.Subset.trans (removeBullets_subset _)
        (List.Subset.trans (lazyCapture_subset rest) (sectionAfter_subset hsub hsa)))

/-! ## Claim C10 (mined fragments are lowercase) -/

/-- Claim C10: every fragment mined into skills, responsibilities or
education terms is entirely lowercase — equal to its own lowercasing —
because the miner works on a lowercased copy of the JD text. -/
theorem c10_fragments_lowercase (jd_text : Str) (f : Str)
    (h : f ∈ (extract_jd_requirements jd_text).skills ∨
      f ∈ (extract_jd_requirements jd_text).responsibilities ∨
      f ∈ (extract_jd_requirements jd_text).education) :
    toLowerT f = f := by
  apply toLowerT_eq_self_of_forall
  intro c hc
  have hsubf : f ⊆ toLowerT jd_text := by
    rcases h with h1 | h1 | h1
    · exact mineSection_subset hmSkills_sub h1
    · exact mineSection_subset hmResp_sub h1
    · exact mineSection_subset hmEdu_sub h1
  exact lowChar_of_mem_toLowerT (hsubf hc)

/-- Witness for C10 on a mixed-case JD text. -/
theorem c10_fragments_lowercase_witness :
    toLowerT "python".data = "python".data :=
  c10_fragments_lowercase "Skills: PyThOn".data "python".data (Or.inl (by decide))

/-! ## Claim C3: capture and split equivalences -/

theorem lazyCapture_eq_captureSpec : ∀ s : Str, lazyCapture s = captureSpec s := by
  intro s
  induction s with
  | nil => rfl
  | cons c t ih =>
    by_cases h : termStop (c :: t) = true
    · have h0 : (termStop (c :: t) || (c :: t).isEmpty) = true := by simp [h]
      unfold lazyCapture captureSpec suffixesL
      rw [if_pos h, List.findIdx_cons, h0]
      rfl
    · have hB : termStop (c :: t) = false := by
        exact Bool.not_eq_true _ ▸ (by simpa using h)
      have h0 : (termStop (c :: t) || (c :: t).isEmpty) = false := by simp [hB]
      unfold lazyCapture captureSpec suffixesL
      rw [if_neg h, List.findIdx_cons, h0]
      show c :: lazyCapture t = c :: t.take (List.findIdx _ (suffixesL t))
      rw [ih]
      rfl

theorem splitOnChar_ne_nil (d : Char) (s : Str) : splitOnChar d s ≠ [] := by
  induction s with
  | nil => simp [splitOnChar]
  | cons c t ih =>
    unfold splitOnChar
    split_ifs
    · simp
    · match h : splitOnChar d t with
      | [] => exact absurd h ih
      | q :: qs => simp [consHead]

theorem splitOnChar_cons_sep (d : Char) (t : Str) :
    splitOnChar d (d :: t) = [] :: splitOnChar d t := by
  simp [splitOnChar]

theorem splitOnChar_cons_other {d c : Char} (hc : c ≠ d) (t : Str) :
    splitOnChar d (c :: t) = consHead c (splitOnChar d t) := by
  simp [splitOnChar, hc]

theorem flatMap_ne_nil {f : Str → List Str} (hne : ∀ x, f x ≠ []) :
    ∀ {L : List Str}, L ≠ [] → L.flatMap f ≠ [] := by
  intro L hL
  match L with
  | h :: tl =>
    rw [List.flatMap_cons]
    intro hcon
    exact hne h (List.append_eq_nil.mp hcon).1

theorem consHead_flatMap {c : Char} {f : Str → List Str}
    (hstep : ∀ x, f (c :: x) = consHead c (f x)) (hne : ∀ x, f x ≠ []) :
    ∀ {L : List Str}, L ≠ [] → (consHead c L).flatMap f = consHead c (L.flatMap f) := by
  intro L hL
  match L with
  | h :: tl =>
    show ((c :: h) :: tl).flatMap f = consHead c ((h :: tl).flatMap f)
    rw [List.flatMap_cons, List.flatMap_cons, hstep h]
    match hfh : f h with
    | [] => exact absurd hfh (hne h)
    | y :: ys => simp [consHead]

theorem consHead_flatMap_sep {d : Char} {f : Str → List Str}
    (hstep : ∀ x, f (d :: x) = [] :: f x) :
    ∀ {L : List Str}, L ≠ [] → (consHead d L).flatMap f = [] :: L.flatMap f := by
  intro L hL
  match L with
  | h :: tl =>
    show ((d :: h) :: tl).flatMap f = [] :: (h :: tl).flatMap f
    rw [List.flatMap_cons, List.flatMap_cons, hstep h]
    simp

theorem splitAny_cons_false {p : Char → Bool} {c : Char} (hp : p c = false) (t : Str) :
    splitAny p (c :: t) = consHead c (splitAny p t) := by
  show (if p c = true then [] :: splitAny p t else consHead c (splitAny p t)) =
    consHead c (splitAny p t)
  rw [hp]
  simp

theorem splitAny_eq_splitNested :
    ∀ s : Str, splitAny (fun c => c == ',' || c == ';' || c == '\n') s = splitNested s := by
  have g1ne : ∀ x, splitOnChar ';' x ≠ [] := splitOnChar_ne_nil ';'
  have g2ne : ∀ x, splitOnChar '\n' x ≠ [] := splitOnChar_ne_nil '\n'
  intro s
  induction s with
  | nil => rfl
  | cons c t ih =>
    by_cases h1 : c = ','
    · subst h1
      have hl : splitAny (fun c => c == ',' || c == ';' || c == '\n') (',' :: t) =
          [] :: splitAny (fun c => c == ',' || c == ';' || c == '\n') t := by
        simp [splitAny]
      rw [hl, ih]
      unfold splitNested
      rw [splitOnChar_cons_sep, List.flatMap_cons]
      simp only [show splitOnChar ';' [] = [[]] from rfl, List.singleton_append,
        List.flatMap_cons, show splitOnChar '\n' [] = [[]] from rfl]
    · by_cases h2 : c = ';'
      · subst h2
        have hl : splitAny (fun c => c == ',' || c == ';' || c == '\n') (';' :: t) =
            [] :: splitAny (fun c => c == ',' || c == ';' || c == '\n') t := by
          simp [splitAny]
        rw [hl, ih]
        unfold splitNested
        rw [splitOnChar_cons_other (by decide : ';' ≠ ',') t]
        rw [consHead_flatMap_sep (fun x => splitOnChar_cons_sep ';' x)
          (splitOnChar_ne_nil ',' t)]
        rw [List.flatMap_cons]
        rw [show splitOnChar '\n' [] = [[]] from rfl]
        rfl
      · by_cases h3 : c = '\n'
        · subst h3
          have hl : splitAny (fun c => c == ',' || c == ';' || c == '\n') ('\n' :: t) =
              [] :: splitAny (fun c => c == ',' || c == ';' || c == '\n') t := by
            simp [splitAny]
          rw [hl, ih]
          unfold splitNested
          rw [splitOnChar_cons_other (by decide : '\n' ≠ ',') t]
          rw [consHead_flatMap (fun x => splitOnChar_cons_other (by decide : '\n' ≠ ';') x)
            g1ne (splitOnChar_ne_nil ',' t)]
          rw [consHead_flatMap_sep (fun x => splitOnChar_cons_sep '\n' x)
            (flatMap_ne_nil g1ne (splitOnChar_ne_nil ',' t))]
        · have hp : (c == ',' || c == ';' || c == '\n') = false := by
            simp [h1, h2, h3]
          rw [splitAny_cons_false hp t, ih]
          unfold splitNested
          rw [splitOnChar_cons_other h1 t]
          rw [consHead_flatMap (fun x => splitOnChar_cons_other h2 x) g1ne
            (splitOnChar_ne_nil ',' t)]
          rw [consHead_flatMap (fun x => splitOnChar_cons_other h3 x) g2ne
            (flatMap_ne_nil g1ne (splitOnChar_ne_nil ',' t))]

theorem mineSection_eq_spec (hm : Str → Option Str) (tl : Str) :
    mineSection hm tl = mineSectionSpec hm tl := by
  cases hsa : sectionAfter hm tl with
  | none =>
    unfold mineSection mineSectionSpec
    rw [hsa]
  | some rest =>
    unfold mineSection mineSectionSpec
    rw [hsa]
    unfold fragsOf
    dsimp only
    rw [lazyCapture_eq_captureSpec, splitAny_eq_splitNested]

/-- Claim C3 (amended): for every JD text and each of the three
categories, the miner captures the text after the matched header synonym,
an optional colon and any immediately following whitespace, up to the
first of: a blank line (two consecutive newlines), a heading-shaped
pattern (a newline, a letter, at least one more letter or whitespace
character, then a colon — matched case-insensitively, so headings of any
casing terminate, not only title-cased ones), or the end of text; strips
every `*`, `-` and `•`; and splits on commas, semicolons and newlines
into trimmed non-empty fragments. -/
theorem c3_section_mining_amended (jd_text : Str) :
    (extract_jd_requirements jd_text).skills = mineSectionSpec hmSkills (toLowerT jd_text) ∧
    (extract_jd_requirements jd_text).responsibilities =
      mineSectionSpec hmResp (toLowerT jd_text) ∧
    (extract_jd_requirements jd_text).education = mineSectionSpec hmEdu (toLowerT jd_text) :=
  ⟨mineSection_eq_spec _ _, mineSection_eq_spec _ _, mineSection_eq_spec _ _⟩

/-- Counterexample to claim C3 as stated: on
`"skills: python\nother things: x"` the second line is a heading that is
not title-cased, so under the claim's wording the capture would run to
the end of text and yield two fragments; the code terminates at the
heading and yields one. -/
theorem c3_titlecase_counterexample :
    (extract_jd_requirements "skills: python\nother things: x".data).skills =
      ["python".data] ∧
    mineSectionTitle hmSkills (toLowerT "skills: python\nother things: x".data) =
      ["python".data, "other things: x".data] ∧
    (extract_jd_requirements "skills: python\nother things: x".data).skills ≠
      mineSectionTitle hmSkills (toLowerT "skills: python\nother things: x".data) :=
  ⟨by decide, by decide, by decide⟩

/-! ## Claim C2: behaviour on empty or blank input -/

theorem ws_cases {c : Char} (h : pyWS c = true) :
    c = ' ' ∨ c = '\t' ∨ c = '\n' ∨ c = '\r' ∨ c = '\x0b' ∨ c = '\x0c' := by
  simpa [pyWS, Bool.or_eq_true, beq_iff_eq, or_assoc] using h

theorem not_digit_of_ws {c : Char} (h : pyWS c = true) : isDigitC c = false := by
  rcases ws_cases h with rfl | rfl | rfl | rfl | rfl | rfl <;> decide

theorem not_local_of_ws {c : Char} (h : pyWS c = true) : isLocalChar c = false := by
  rcases ws_cases h with rfl | rfl | rfl | rfl | rfl | rfl <;> decide

theorem ne_plus_of_ws {c : Char} (h : pyWS c = true) : c ≠ '+' := by
  rcases ws_cases h with rfl | rfl | rfl | rfl | rfl | rfl <;> decide

/-- A matcher that fails on every whitespace-headed position never fires
on an all-whitespace text. -/
theorem scanFirst_none {α : Type} {f : Str → Option α}
    (hf : ∀ c t, pyWS c = true → (∀ x ∈ t, pyWS x = true) → f (c :: t) = none) :
    ∀ {s : Str}, (∀ c ∈ s, pyWS c = true) → scanFirst f s = none := by
  intro s
  induction s with
  | nil => intro _; rfl
  | cons c t ih =>
    intro hall
    show (f (c :: t) <|> scanFirst f t) = none
    rw [hf c t (hall c (List.mem_cons_self c t)) (fun x hx => hall x (List.mem_cons_of_mem c hx)),
      ih (fun x hx => hall x (List.mem_cons_of_mem c hx))]
    rfl

theorem tryDigits_none_of_ws {k : ℕ} (hk : 1 ≤ k) :
    ∀ {s : Str}, (∀ c ∈ s, pyWS c = true) → tryDigits k s = none := by
  intro s hall
  cases s with
  | nil =>
    unfold tryDigits
    rw [if_neg]
    intro hcon
    have h1 := (Bool.and_eq_true _ _).mp hcon
    have h2 := of_decide_eq_true h1.1
    simp at h2
    omega
  | cons c t =>
    unfold tryDigits
    rw [if_neg]
    intro hcon
    have h1 := (Bool.and_eq_true _ _).mp hcon
    have hcd : isDigitC c = true := by
      have hmem : c ∈ (c :: t).take k := by
        match k, hk with
        | j + 1, _ => exact List.mem_cons_self c _
      exact List.all_eq_true.mp h1.2 c hmem
    rw [not_digit_of_ws (hall c (List.mem_cons_self c t))] at hcd
    cases hcd

theorem all_ws_of_sub {s t : Str} (hsub : s ⊆ t) (hall : ∀ c ∈ t, pyWS c = true) :
    ∀ c ∈ s, pyWS c = true := fun c hc => hall c (hsub hc)

theorem matchEmailAt_none_of_ws {c : Char} {t : Str} (hc : pyWS c = true)
    (hall : ∀ x ∈ t, pyWS x = true) : matchEmailAt (c :: t) = none := by
  unfold matchEmailAt
  rw [List.takeWhile_cons, not_local_of_ws hc]
  rfl

theorem matchPhoneAt_none_of_ws {c : Char} {t : Str} (hc : pyWS c = true)
    (hall : ∀ x ∈ t, pyWS x = true) : matchPhoneAt (c :: t) = none := by
  have hallct : ∀ x ∈ c :: t, pyWS x = true := by
    intro x hx
    rcases List.mem_cons.mp hx with rfl | hx
    · exact hc
    · exact hall x hx
  have hdt : digitTrials13 (c :: t) = [] := by
    unfold digitTrials13
    rw [List.filterMap_cons, List.filterMap_cons, List.filterMap_cons]
    rw [tryDigits_none_of_ws (by omega) hallct, tryDigits_none_of_ws (by omega) hallct,
      tryDigits_none_of_ws (by omega) hallct]
    rfl
  have hct : countryTrials (c :: t) = [([], c :: t)] := by
    unfold countryTrials
    rw [hdt]
    split
    · next heq =>
        injection heq with h1 _
        exact absurd h1 (ne_plus_of_ws hc)
    · rfl
  unfold matchPhoneAt
  rw [hct]
  have hr2 : ∀ x ∈ (c :: t).dropWhile isSep1, pyWS x = true :=
    all_ws_of_sub ((List.dropWhile_sublist _).subset) hallct
  rw [List.findSome?_cons]
  dsimp only
  rw [tryDigits_none_of_ws (by omega) hr2]
  rfl

theorem matchResumeYearsAt_none_of_ws {c : Char} {t : Str} (hc : pyWS c = true)
    (hall : ∀ x ∈ t, pyWS x = true) : matchResumeYearsAt (c :: t) = none := by
  unfold matchResumeYearsAt
  dsimp only
  rw [not_digit_of_ws hc]
  rfl

theorem matchScorerYearsAt_none_of_ws {c : Char} {t : Str} (hc : pyWS c = true)
    (hall : ∀ x ∈ t, pyWS x = true) : matchScorerYearsAt (c :: t) = none := by
  unfold matchScorerYearsAt
  dsimp only
  rw [not_digit_of_ws hc]
  rfl

theorem pyStrip_eq_nil_of_ws {l : Str} (h : ∀ c ∈ l, pyWS c = true) : pyStrip l = [] := by
  unfold pyStrip
  rw [List.dropWhile_eq_nil_iff.mpr h]
  rfl

theorem splitOnChar_piece_subset (d : Char) :
    ∀ (s : Str) (q : Str), q ∈ splitOnChar d s → q ⊆ s := by
  intro s
  induction s with
  | nil =>
    intro q hq
    simp only [splitOnChar, List.mem_singleton] at hq
    subst hq
    exact List.nil_subset _
  | cons c t ih =>
    intro q hq
    unfold splitOnChar at hq
    split_ifs at hq
    · rcases List.mem_cons.mp hq with rfl | hmem
      · exact List.nil_subset _
      · exact List.Subset.trans (ih q hmem) (List.subset_cons_self c t)
    · match hsp : splitOnChar d t with
      | [] => exact absurd hsp (splitOnChar_ne_nil d t)
      | h0 :: tl =>
        rw [hsp] at hq
        simp only [consHead] at hq
        rcases List.mem_cons.mp hq with rfl | hmem
        · have h0t : h0 ⊆ t := ih h0 (by rw [hsp]; exact List.mem_cons_self _ _)
          exact List.cons_subset_cons c h0t
        · exact List.Subset.trans (ih q (by rw [hsp]; exact List.mem_cons_of_mem _ hmem))
            (List.subset_cons_self c t)

theorem nameFallback_none_of_ws {text : Str} (h : ∀ c ∈ text, pyWS c = true) :
    nameFallback text = none := by
  have hlns : (((splitOnChar '\n' text).map pyStrip).filter (fun l => !l.isEmpty)) = [] := by
    rw [List.filter_eq_nil_iff]
    intro a ha
    obtain ⟨q, hq, rfl⟩ := List.mem_map.mp ha
    rw [pyStrip_eq_nil_of_ws (all_ws_of_sub (splitOnChar_piece_subset '\n' text q hq) h)]
    simp
  unfold nameFallback
  rw [hlns]
  rfl

/-- A pattern containing a non-whitespace character is not a substring of
an all-whitespace text. -/
theorem not_sub_of_has_nonws {k tl : Str} (c0 : Char) (hc0 : c0 ∈ k)
    (hnws : pyWS c0 = false) (hall : ∀ c ∈ tl, pyWS c = true) : isSubT k tl = false := by
  by_contra hcon
  have : isSubT k tl = true := by
    cases hx : isSubT k tl
    · exact absurd hx hcon
    · rfl
  have hinf := (isSubT_iff k tl).mp this
  have := hall c0 (hinf.subset hc0)
  rw [hnws] at this
  cases this

theorem toLowerT_all_ws {text : Str} (h : ∀ c ∈ text, pyWS c = true) :
    ∀ c ∈ toLowerT text, pyWS c = true := by
  intro c hc
  obtain ⟨d, hd, rfl⟩ := List.mem_map.mp hc
  rw [pyWS_lowChar]
  exact h d hd

theorem educationOf_nil_of_ws {text : Str} (h : ∀ c ∈ text, pyWS c = true) :
    educationOf (toLowerT text) = [] := by
  have hfind : eduKeywords.find? (fun k => isSubT k (toLowerT text)) = none := by
    rw [List.find?_eq_none]
    intro k hk
    have hlow := toLowerT_all_ws h
    simp only [eduKeywords, List.mem_cons, List.mem_singleton, List.not_mem_nil,
      or_false] at hk
    have : isSubT k (toLowerT text) = false := by
      rcases hk with rfl | rfl | rfl
      · exact not_sub_of_has_nonws 'e' (by decide) (by decide) hlow
      · exact not_sub_of_has_nonws 'a' (by decide) (by decide) hlow
      · exact not_sub_of_has_nonws 'q' (by decide) (by decide) hlow
    simp [this]
  unfold educationOf
  rw [hfind]

theorem dropWhile_head_false {p : Char → Bool} :
    ∀ {l x xs}, List.dropWhile p l = x :: xs → p x = false := by
  intro l
  induction l with
  | nil => intro x xs h; cases h
  | cons c t ih =>
    intro x xs h
    rw [List.dropWhile_cons] at h
    split_ifs at h with hp
    · exact ih h
    · injection h with h1 _
      subst h1
      cases hpc : p c
      · rfl
      · exact absurd hpc hp

theorem exists_nonws_of_pyStrip_ne_nil {l : Str} (h : pyStrip l ≠ []) :
    ∃ c ∈ pyStrip l, pyWS c = false := by
  cases hX : List.dropWhile pyWS (List.dropWhile pyWS l).reverse with
  | nil =>
    exfalso
    apply h
    unfold pyStrip
    rw [hX]
    rfl
  | cons x xs =>
    refine ⟨x, ?_, dropWhile_head_false hX⟩
    show x ∈ pyStrip l
    unfold pyStrip
    rw [hX]
    simp

theorem toLowerT_idem (s : Str) : toLowerT (toLowerT s) = toLowerT s := by
  unfold toLowerT
  rw [List.map_map]
  exact List.map_congr_left (fun c _ => lowChar_idem c)

theorem mem_insLen {a x : Str} : ∀ {l : List Str}, a ∈ insLen x l ↔ a = x ∨ a ∈ l := by
  intro l
  induction l with
  | nil => simp [insLen]
  | cons y ys ih =>
    unfold insLen
    split_ifs
    · simp
    · rw [List.mem_cons, ih, List.mem_cons]
      tauto

theorem mem_sortLenDesc {a : Str} : ∀ {l : List Str}, a ∈ sortLenDesc l ↔ a ∈ l := by
  intro l
  induction l with
  | nil => simp [sortLenDesc]
  | cons x xs ih =>
    show a ∈ insLen x (sortLenDesc xs) ↔ _
    rw [mem_insLen, ih, List.mem_cons]

theorem vocab_entry_not_sub {fileLines : List Str} {text : Str}
    (hlines : ∀ l ∈ fileLines, pyStrip l ≠ []) (htext : ∀ c ∈ text, pyWS c = true) :
    ∀ sk ∈ load_common_skills fileLines, isSubT (toLowerT sk) (toLowerT text) = false := by
  intro sk hsk
  have hsk2 : sk ∈ (fileLines.map (fun l => toLowerT (pyStrip l))).dedup :=
    mem_sortLenDesc.mp hsk
  obtain ⟨l, hl, rfl⟩ := List.mem_map.mp (List.mem_dedup.mp hsk2)
  obtain ⟨x, hx, hxnw⟩ := exists_nonws_of_pyStrip_ne_nil (hlines l hl)
  have hc0mem : lowChar x ∈ toLowerT (pyStrip l) := List.mem_map_of_mem _ hx
  have hc0nw : pyWS (lowChar x) = false := by
    rw [pyWS_lowChar]
    exact hxnw
  rw [toLowerT_idem]
  exact not_sub_of_has_nonws (lowChar x) hc0mem hc0nw (toLowerT_all_ws htext)

/-- Claim C2 (amended): on empty or blank raw text `parse_resume_info`
does not raise; it proceeds and returns a hollow record — name, email
and phone absent, skills, experience and education empty, raw text equal
to the input — provided the entity recognizer reports no entities on
that text and no line of the skills file is blank. -/
theorem c2_blank_input_returns_hollow_record (fileLines : List Str) (text : Str)
    (hlines : ∀ l ∈ fileLines, pyStrip l ≠ [])
    (htext : ∀ c ∈ text, pyWS c = true) :
    parse_resume_info (load_common_skills fileLines) [] text =
      { name := none, email := none, phone := none, skills := [], experience := [],
        education := [], raw_text := text } := by
  have hemail : scanFirst matchEmailAt text = none :=
    scanFirst_none (fun c t hc hall => matchEmailAt_none_of_ws hc hall) htext
  have hphone : scanFirst matchPhoneAt text = none :=
    scanFirst_none (fun c t hc hall => matchPhoneAt_none_of_ws hc hall) htext
  have hyears : scanFirst matchResumeYearsAt (toLowerT text) = none :=
    scanFirst_none (fun c t hc hall => matchResumeYearsAt_none_of_ws hc hall)
      (toLowerT_all_ws htext)
  have hskills : (load_common_skills fileLines).filter
      (fun sk => isSubT (toLowerT sk) (toLowerT text)) = [] := by
    rw [List.filter_eq_nil_iff]
    intro sk hsk
    rw [vocab_entry_not_sub hlines htext sk hsk]
    simp
  have hname : nameFallback text = none := nameFallback_none_of_ws htext
  have hedu : educationOf (toLowerT text) = [] := educationOf_nil_of_ws htext
  unfold parse_resume_info
  dsimp only
  rw [hemail, hphone, hyears, hskills, hedu]
  show CandidateRecord.mk (nameFromEnts [] <|> nameFallback text) _ _ _ _ _ _ = _
  rw [hname]
  rfl

/-- Witness for the amended C2 at a blank three-character input. -/
theorem c2_blank_input_returns_hollow_record_witness :
    parse_resume_info (load_common_skills ["Python".data]) [] "  \n ".data =
      { name := none, email := none, phone := none, skills := [], experience := [],
        education := [], raw_text := "  \n ".data } :=
  c2_blank_input_returns_hollow_record ["Python".data] "  \n ".data (by decide) (by decide)

/-- Counterexample to claim C2 as stated: on empty raw text the extractor
does not fail with an `EmptyInputError` (no such error exists anywhere in
the code; the function is total); it returns exactly the hollow record
with absent/empty fields that the claim says it must not return. -/
theorem c2_empty_input_no_error_counterexample :
    parse_resume_info (load_common_skills []) [] [] =
      { name := none, email := none, phone := none, skills := [], experience := [],
        education := [], raw_text := [] } := by
  decide
